import Mathlib

/-!
# Verification of the Snatch word-game steal engine

Shallow embedding of the steal-finding engine of the `snatch-game`
repository (`src/steals.js`, the word-validation module `words.js`, and the
state module `state.js`), together with proofs of the specification claims.

Modelling conventions:

* A JavaScript string over the game alphabet is modelled as a `List Char`
  (`Word`).  `String.prototype.localeCompare` on the uppercase words handled
  by the engine agrees with code-unit lexicographic comparison, which is
  modelled by `lexLE`.
* A JavaScript letter-counts object (`getLetterCounts`) maps each letter to
  a positive occurrence count; such an object is determined by the multiset
  of letters it counts.  We model a counts object by a list of characters
  carrying that multiset (`LetterCounts := List Char`).  Every operation of
  the source on counts objects (subset tests, per-letter differences,
  per-letter sums, totals) depends only on the underlying multiset and is
  modelled by the corresponding permutation-invariant list operation
  (`List.count`, `List.diff`, `(· ++ ·)`, `List.length`).
* `Array.prototype.sort` with a comparator `cmp` is a stable sort; it is
  modelled by `List.insertionSort` (also stable) with the Boolean relation
  `le a b ⇔ cmp a b ≤ 0`.
* The global state read through `getWordList()` / `getEtymology()` is
  modelled by an explicit read-only context (`Ctx`), and the host Unicode
  primitives `String.prototype.toLowerCase` composed with
  `String.prototype.normalize('NFD')` are modelled by the context field
  `lowerNFD` (for pure-ASCII data the identity map is a correct instance).
-/

/-- A word: the model of a JavaScript string over the game alphabet. -/
abbrev Word := List Char

/-- An etymology tag, a string of the form `"<language>:<root>"`. -/
abbrev Tag := List Char

/-- The model of a letter-counts object: a list carrying the counted
multiset (see the module docstring). -/
abbrev LetterCounts := List Char

/-- `MIN_WORD_LENGTH` from `words.js`. -/
def MIN_WORD_LENGTH : Nat := 4

/-- `MIN_MERGE_LENGTH = MIN_WORD_LENGTH * 2 + 1` from `words.js`. -/
def MIN_MERGE_LENGTH : Nat := MIN_WORD_LENGTH * 2 + 1

/-- Code-unit lexicographic `≤` on words; the model of
`a.localeCompare(b) <= 0` (and of the default `Array.prototype.sort`
comparison) for the uppercase ASCII words handled by the engine. -/
def lexLE : List Char → List Char → Bool
  | [], _ => true
  | _ :: _, [] => false
  | a :: as, b :: bs => if a < b then true else if b < a then false else lexLE as bs

/-- Model of `w.startsWith(p)` for strings. -/
def listStartsWith : List Char → List Char → Bool
  | _, [] => true
  | [], _ :: _ => false
  | a :: as, b :: bs => a == b && listStartsWith as bs

/-- Model of `w.endsWith(s)` for strings. -/
def listEndsWith (w s : List Char) : Bool :=
  listStartsWith w.reverse s.reverse

/-- Model of `w.includes(sub)` (contiguous substring test) for strings. -/
def listContainsSub : List Char → List Char → Bool
  | w, sub =>
    match w with
    | [] => listStartsWith [] sub
    | c :: rest => listStartsWith (c :: rest) sub || listContainsSub rest sub

/-- `getLetterCounts` from `words.js`: builds the letter-frequency object of
a word.  In the model a counts object is the list carrying the counted
multiset, so the function is the identity on the representation. -/
def getLetterCounts (word : Word) : LetterCounts := word

/-- `isStrictSubset` from `words.js`: every letter of `smallerCounts` occurs
in `largerCounts` at least as often, and the total of `smallerCounts` is
strictly less than the total of `largerCounts`. -/
def isStrictSubset (smallerCounts largerCounts : LetterCounts) : Bool :=
  decide ((∀ c ∈ smallerCounts, smallerCounts.count c ≤ largerCounts.count c) ∧
    smallerCounts.length < largerCounts.length)

/-- The non-strict inline subset check used by `findMergeSteals` and
`findMergeStealsTo` in `steals.js` (`for (const letter in counts) { if
(!target[letter] || counts[letter] > target[letter]) ... }`). -/
def isSubsetCounts (counts target : LetterCounts) : Bool :=
  decide (∀ c ∈ counts, counts.count c ≤ target.count c)

/-- `getAddedLetters` from `words.js`: the per-letter difference
`largerCounts − smallerCounts` (clipped at 0), emitted as an alphabetically
sorted string.  `List.diff` computes the per-letter clipped difference and
`insertionSort` models the final `added.sort().join('')`. -/
def getAddedLetters (smallerCounts largerCounts : LetterCounts) : List Char :=
  (largerCounts.diff smallerCounts).insertionSort (· ≤ ·)

/-- `combineLetterCounts` from `words.js`: per-letter sum of two counts
objects, i.e. multiset union, modelled by list append. -/
def combineLetterCounts (counts1 counts2 : LetterCounts) : LetterCounts :=
  counts1 ++ counts2

/-- `isCombinedStrictSubset` from `words.js`. -/
def isCombinedStrictSubset (counts1 counts2 targetCounts : LetterCounts) : Bool :=
  isStrictSubset (combineLetterCounts counts1 counts2) targetCounts

/-- `INFLECTION_SUFFIXES` from `words.js`. -/
def INFLECTION_SUFFIXES : List (List Char) :=
  (["S", "ES", "ED", "D", "ING", "ER", "EST", "LY", "NESS", "MENT", "ABLE",
    "IBLE", "TION", "SION", "FUL", "LESS", "ISH", "IZE", "ISE", "EN", "LET",
    "LETS", "Y", "IER", "IEST"] : List String).map (·.toList)

/-- `INFLECTION_PREFIXES` from `words.js`. -/
def INFLECTION_PREFIXES : List (List Char) :=
  (["UN", "RE", "PRE", "DE", "DIS", "MIS", "NON", "OVER", "UNDER", "OUT",
    "SUB", "SEMI", "ANTI", "MID", "BI", "TRI"] : List String).map (·.toList)

/-- `DOUBLE_CONSONANTS` from `words.js`. -/
def DOUBLE_CONSONANTS : List Char := "BCDFGKLMNPRSTVZ".toList

/-- Splits an etymology tag at its colons, modelling
`const [lang, root] = tag.split(':')`: the language is the text before the
first colon; the root is the chunk between the first and second colon
(`none` models `undefined`, returned when the tag has no colon at all). -/
def splitTag (tag : Tag) : List Char × Option (List Char) :=
  let lang := tag.takeWhile (· ≠ ':')
  match tag.dropWhile (· ≠ ':') with
  | [] => (lang, none)
  | _ :: rest => (lang, some (rest.takeWhile (· ≠ ':')))

/-- The root normalization of `etymologiesMatch` in `words.js`:
`root.toLowerCase().normalize('NFD').replace(/[̀-ͯ]/g, '')`.
The host Unicode lowercasing-plus-NFD step is supplied as `lowerNFD`; the
combining-diacritical-mark stripping is the explicit filter. -/
def normalizeRoot (lowerNFD : List Char → List Char) (root : List Char) : List Char :=
  (lowerNFD root).filter (fun c => !(0x300 ≤ c.toNat && c.toNat ≤ 0x36F))

/-- `etymologiesMatch` from `words.js`: exact tag equality, or same language
with both roots present and non-empty whose normalizations have length ≥ 3
and one a suffix of the other. -/
def etymologiesMatch (lowerNFD : List Char → List Char) (etym1 etym2 : Tag) : Bool :=
  if etym1 = etym2 then true
  else
    let p1 := splitTag etym1
    let p2 := splitTag etym2
    match p1.2, p2.2 with
    | some root1, some root2 =>
      if p1.1 = p2.1 && !root1.isEmpty && !root2.isEmpty then
        let r1 := normalizeRoot lowerNFD root1
        let r2 := normalizeRoot lowerNFD root2
        if 3 ≤ r1.length && 3 ≤ r2.length then
          listEndsWith r2 r1 || listEndsWith r1 r2
        else false
      else false
    | _, _ => false

/-- The read-only engine context: the word list and etymology table held in
`state.js` (loaded once, never mutated during queries), plus the host
Unicode primitive used by `etymologiesMatch` (see `normalizeRoot`).
`etymology w = none` models a word absent from the etymology table;
`etymology w = some tags` models a word mapped to an array of tags. -/
structure Ctx where
  wordList : List Word
  etymology : Word → Option (List Tag)
  lowerNFD : List Char → List Char

/-- `shareEtymology` from `words.js`: `some true` / `some false` when both
words have etymology entries (according to whether any tag pair matches),
`none` (the model of `null`) when either entry is missing. -/
def shareEtymology (ctx : Ctx) (word1 word2 : Word) : Option Bool :=
  match ctx.etymology word1, ctx.etymology word2 with
  | some etymList1, some etymList2 =>
    some (etymList1.any fun etym1 =>
      etymList2.any fun etym2 => etymologiesMatch ctx.lowerNFD etym1 etym2)
  | _, _ => none

/-- `isInflection` from `words.js`: a steal is invalid when the words share
an etymological root, or (fallback, always checked) when the result word is
the base word plus a listed inflectional suffix, the base word plus a
doubled final consonant plus a listed suffix, or a listed derivational
prefix plus the base word. -/
def isInflection (ctx : Ctx) (baseWord resultWord : Word) : Bool :=
  if shareEtymology ctx baseWord resultWord = some true then true
  else
    (if listStartsWith resultWord baseWord then
      let sfx := resultWord.drop baseWord.length
      if sfx ∈ INFLECTION_SUFFIXES then true
      else
        match sfx with
        | doubledChar :: restOfSuffix =>
          decide (2 ≤ sfx.length) && DOUBLE_CONSONANTS.contains doubledChar &&
            listEndsWith baseWord [doubledChar] &&
            decide (restOfSuffix ∈ INFLECTION_SUFFIXES)
        | [] => false
    else false) ||
    (if listEndsWith resultWord baseWord then
      resultWord.take (resultWord.length - baseWord.length) ∈ INFLECTION_PREFIXES
    else false)

/-- `isCompoundContaining` from `words.js`. -/
def isCompoundContaining (word1 word2 resultWord : Word) : Bool :=
  listContainsSub resultWord word1 || listContainsSub resultWord word2

/-- Model of `String.prototype.trim`. -/
def jsTrim (w : List Char) : List Char :=
  ((w.dropWhile Char.isWhitespace).reverse.dropWhile Char.isWhitespace).reverse

/-- `checkWord` from `words.js`: `none` models the `null` returned for an
empty trimmed word or an unloaded dictionary; otherwise one of the strings
`"too_short"`, `"valid"`, `"invalid"`.  The dictionary membership test
`getDictionary().has(w)` is modelled by membership in the word list (the
two hold the same words: `setDictionary` derives one from the other). -/
def checkWord (wordList : List Word) (isLoaded : Bool) (word : Word) : Option String :=
  let normalizedWord := (jsTrim word).map Char.toUpper
  if normalizedWord.isEmpty || !isLoaded then none
  else if normalizedWord.length < MIN_WORD_LENGTH then some "too_short"
  else if normalizedWord ∈ wordList then some "valid"
  else some "invalid"

/-- The search direction of `findStealsCore` (`'from'` / `'to'` in
`steals.js`). -/
inductive Direction where
  | fromDir
  | toDir
deriving DecidableEq

/-- A record pushed by `findStealsCore`: `{ word, addedLetters, invalid }`. -/
structure StealResult where
  word : Word
  addedLetters : List Char
  invalid : Bool
deriving DecidableEq

/-- The comparator of `findStealsCore` as a Boolean `≤` (`cmp a b ≤ 0`):
valid before invalid, then by length (descending for `'from'`, ascending
for `'to'`), then alphabetically. -/
def stealLE (direction : Direction) (a b : StealResult) : Bool :=
  if a.invalid ≠ b.invalid then !a.invalid
  else if a.word.length ≠ b.word.length then
    match direction with
    | .fromDir => decide (b.word.length < a.word.length)
    | .toDir => decide (a.word.length < b.word.length)
  else lexLE a.word b.word

/-- `findStealsCore` from `steals.js`: scans the word list for candidates of
length ≥ `MIN_WORD_LENGTH` on the correct side of the reference word's
length whose counts make a strict subset pair with the reference word's
counts, records `addedLetters` and the `isInflection` validity flag, and
stable-sorts with `stealLE`. -/
def findStealsCore (ctx : Ctx) (referenceWord : Word) (direction : Direction) :
    List StealResult :=
  let referenceCounts := getLetterCounts referenceWord
  let results := ctx.wordList.filterMap fun word =>
    if word.length < MIN_WORD_LENGTH then none
    else
      let validLength := match direction with
        | .fromDir => decide (word.length < referenceWord.length)
        | .toDir => decide (word.length > referenceWord.length)
      if !validLength then none
      else
        let wordCounts := getLetterCounts word
        let pair := match direction with
          | .fromDir => (wordCounts, referenceCounts)
          | .toDir => (referenceCounts, wordCounts)
        if isStrictSubset pair.1 pair.2 then
          let addedLetters := getAddedLetters pair.1 pair.2
          let basePair := match direction with
            | .fromDir => (word, referenceWord)
            | .toDir => (referenceWord, word)
          some ⟨word, addedLetters, isInflection ctx basePair.1 basePair.2⟩
        else none
  results.insertionSort (stealLE direction · ·)

/-- A result of `findStealsFrom`: `{ baseWord, addedLetters, invalid }`. -/
structure FromResult where
  baseWord : Word
  addedLetters : List Char
  invalid : Bool
deriving DecidableEq

/-- A result of `findStealsTo`: `{ resultWord, addedLetters, invalid }`. -/
structure ToResult where
  resultWord : Word
  addedLetters : List Char
  invalid : Bool
deriving DecidableEq

/-- `findStealsFrom` from `steals.js`. -/
def findStealsFrom (ctx : Ctx) (targetWord : Word) : List FromResult :=
  (findStealsCore ctx targetWord .fromDir).map fun r =>
    ⟨r.word, r.addedLetters, r.invalid⟩

/-- `findStealsTo` from `steals.js`. -/
def findStealsTo (ctx : Ctx) (sourceWord : Word) : List ToResult :=
  (findStealsCore ctx sourceWord .toDir).map fun r =>
    ⟨r.word, r.addedLetters, r.invalid⟩

/-- A result of `findMergeSteals`:
`{ word1, word2, addedLetters, invalid }`. -/
structure MergeResult where
  word1 : Word
  word2 : Word
  addedLetters : List Char
  invalid : Bool
deriving DecidableEq

/-- The comparator of `findMergeSteals` as a Boolean `≤`: valid first, then
by combined length of the two words descending, then alphabetically by the
first word. -/
def mergeLE (a b : MergeResult) : Bool :=
  if a.invalid ≠ b.invalid then !a.invalid
  else
    let aTotal := a.word1.length + a.word2.length
    let bTotal := b.word1.length + b.word2.length
    if bTotal ≠ aTotal then decide (bTotal < aTotal)
    else lexLE a.word1 b.word1

/-- The ordered pairs `(i, j)` with `i < j` of the doubly nested candidate
scan of `findMergeSteals`, in scan order. -/
def orderedPairs : List α → List (α × α)
  | [] => []
  | x :: xs => (xs.map fun y => (x, y)) ++ orderedPairs xs

/-- The order-independent dedup key
`[word1, word2].sort().join('|')` of `findMergeSteals`, modelled as the
lexicographically ordered pair (the joined string determines and is
determined by that pair for the `'|'`-free words the engine handles). -/
def pairKey (word1 word2 : Word) : Word × Word :=
  if lexLE word1 word2 then (word1, word2) else (word2, word1)

/-- `findMergeSteals` from `steals.js`: for targets of length ≥
`MIN_MERGE_LENGTH`, filters the word list to candidates of bounded length
whose counts are subsets of the target's, then scans ordered candidate
pairs, keeping pairs of combined length below the target's whose combined
counts are a strict subset of the target's, deduplicating by `pairKey`,
stopping at `maxResults`, and stable-sorting with `mergeLE`.  The JS loop
breaks out once `results.length >= maxResults` holds at the top of an
iteration; as appending is the loop's only effect, this is modelled by a
fold that leaves the state unchanged once the bound is reached. -/
def findMergeSteals (ctx : Ctx) (targetWord : Word) (maxResults : Nat := 200) :
    List MergeResult :=
  let targetCounts := getLetterCounts targetWord
  let targetLength := targetWord.length
  if targetLength < MIN_MERGE_LENGTH then []
  else
    let candidateWords := ctx.wordList.filterMap fun word =>
      if word.length < MIN_WORD_LENGTH || targetLength - MIN_WORD_LENGTH - 1 < word.length
      then none
      else if isSubsetCounts (getLetterCounts word) targetCounts then
        some (word, getLetterCounts word)
      else none
    let scan := (orderedPairs candidateWords).foldl
      (fun (st : List MergeResult × List (Word × Word)) p =>
        if maxResults ≤ st.1.length then st
        else if targetLength ≤ p.1.1.length + p.2.1.length then st
        else if isCombinedStrictSubset p.1.2 p.2.2 targetCounts then
          let combined := combineLetterCounts p.1.2 p.2.2
          let addedLetters := getAddedLetters combined targetCounts
          let key := pairKey p.1.1 p.2.1
          if key ∈ st.2 then st
          else
            (st.1 ++ [⟨p.1.1, p.2.1, addedLetters,
              isCompoundContaining p.1.1 p.2.1 targetWord⟩], key :: st.2)
        else st)
      ([], [])
    scan.1.insertionSort (mergeLE · ·)

/-- A result of `findMergeStealsTo`:
`{ otherWord, addedLetters, resultWord, invalid }`. -/
structure MergeToResult where
  otherWord : Word
  addedLetters : List Char
  resultWord : Word
  invalid : Bool
deriving DecidableEq

/-- The comparator of `findMergeStealsTo` as a Boolean `≤`: valid first,
then by result-word length ascending, then by other-word length descending,
then alphabetically by result word. -/
def mergeToLE (a b : MergeToResult) : Bool :=
  if a.invalid ≠ b.invalid then !a.invalid
  else if a.resultWord.length ≠ b.resultWord.length then
    decide (a.resultWord.length < b.resultWord.length)
  else if b.otherWord.length ≠ a.otherWord.length then
    decide (b.otherWord.length < a.otherWord.length)
  else lexLE a.resultWord b.resultWord

/-- `findMergeStealsTo` from `steals.js`: for each dictionary target whose
length lies in `[sourceLength + MIN_WORD_LENGTH + 1, sourceLength + 10]`
and whose counts contain the source's, computes the remaining counts
(target − source) and scans the word list for other words of length in
`[MIN_WORD_LENGTH, remainingLength)` whose counts fit in the remainder,
recording those with a non-empty `addedLetters`.  Both loops stop once
`maxResults` results exist; as in `findMergeSteals` the breaks are modelled
by folds that leave the state unchanged once the bound is reached. -/
def findMergeStealsTo (ctx : Ctx) (sourceWord : Word) (maxResults : Nat := 200) :
    List MergeToResult :=
  let sourceCounts := getLetterCounts sourceWord
  let sourceLength := sourceWord.length
  let results := ctx.wordList.foldl
    (fun (results : List MergeToResult) targetWord =>
      if maxResults ≤ results.length then results
      else
        let targetLength := targetWord.length
        if targetLength < sourceLength + MIN_WORD_LENGTH + 1 then results
        else if sourceLength + 10 < targetLength then results
        else
          let targetCounts := getLetterCounts targetWord
          if !isSubsetCounts sourceCounts targetCounts then results
          else
            let remainingCounts := targetCounts.diff sourceCounts
            let remainingLength := remainingCounts.length
            ctx.wordList.foldl
              (fun (results : List MergeToResult) otherWord =>
                if maxResults ≤ results.length then results
                else if otherWord.length < MIN_WORD_LENGTH ||
                    remainingLength ≤ otherWord.length then results
                else
                  let otherCounts := getLetterCounts otherWord
                  if !isSubsetCounts otherCounts remainingCounts then results
                  else
                    let combined := combineLetterCounts sourceCounts otherCounts
                    let addedLetters := getAddedLetters combined targetCounts
                    if 0 < addedLetters.length then
                      results ++ [⟨otherWord, addedLetters, targetWord,
                        isCompoundContaining sourceWord otherWord targetWord⟩]
                    else results)
              results)
    []
  results.insertionSort (mergeToLE · ·)

/-- The empty test context used by the concrete examples: no etymology data
and a pure-ASCII Unicode normalizer. -/
def testCtx (words : List Word) : Ctx :=
  ⟨words, fun _ => none, id⟩

/-- A small concrete etymology table used by the closed instances: `CAT`
has an empty tag list, `DOG` one tag, `FIXED` and `SUFFIXED` cognate Latin
tags; every other word is absent. -/
def etymTestCtx : Ctx :=
  ⟨[], fun w =>
    if w = "CAT".toList then some []
    else if w = "DOG".toList then some ["latin:abc".toList]
    else if w = "FIXED".toList then some ["latin:fixus".toList]
    else if w = "SUFFIXED".toList then some ["latin:suffixus".toList]
    else none, id⟩

/-- `s` is a contiguous suffix of `w` (specification-level notion used to
state the fuzzy etymology match). -/
def isSuffixOf (s w : List Char) : Prop := ∃ t, w = t ++ s

/-- Specification-level reading of the tag-matching rule: two tags match
exactly when they are identical strings, or when they share the same
language, both roots are present and non-empty, and after normalization
both roots have length ≥ 3 and one is a suffix of the other. -/
def tagsMatchSpec (lowerNFD : List Char → List Char) (t1 t2 : Tag) : Prop :=
  t1 = t2 ∨
  ((splitTag t1).1 = (splitTag t2).1 ∧
    ∃ r1 r2, (splitTag t1).2 = some r1 ∧ (splitTag t2).2 = some r2 ∧
      r1 ≠ [] ∧ r2 ≠ [] ∧
      3 ≤ (normalizeRoot lowerNFD r1).length ∧
      3 ≤ (normalizeRoot lowerNFD r2).length ∧
      (isSuffixOf (normalizeRoot lowerNFD r1) (normalizeRoot lowerNFD r2) ∨
        isSuffixOf (normalizeRoot lowerNFD r2) (normalizeRoot lowerNFD r1)))

/-- Specification-level reading of the affix fallback of `isInflection`:
the result word is the base word followed by a listed inflectional suffix,
or the base word followed by a doubled consonant (from the fixed doubling
set, which the base word already ends with) followed by a listed suffix,
or a listed derivational prefix followed by the base word. -/
def affixRelated (baseWord resultWord : Word) : Prop :=
  (∃ s ∈ INFLECTION_SUFFIXES, resultWord = baseWord ++ s) ∨
  (∃ d ∈ DOUBLE_CONSONANTS, ∃ s ∈ INFLECTION_SUFFIXES,
    listEndsWith baseWord [d] = true ∧ resultWord = baseWord ++ d :: s) ∨
  (∃ p ∈ INFLECTION_PREFIXES, resultWord = p ++ baseWord)

/-- Specification-level ordering of `findStealsFrom` results: valid entries
precede invalid ones; within a validity group, longer base words first,
ties broken alphabetically. -/
def fromOrd (a b : FromResult) : Prop :=
  (a.invalid = false ∧ b.invalid = true) ∨
  (a.invalid = b.invalid ∧
    (b.baseWord.length < a.baseWord.length ∨
      (a.baseWord.length = b.baseWord.length ∧ lexLE a.baseWord b.baseWord = true)))

/-- Specification-level ordering of `findStealsTo` results: valid entries
precede invalid ones; within a validity group, shorter result words first,
ties broken alphabetically. -/
def toOrd (a b : ToResult) : Prop :=
  (a.invalid = false ∧ b.invalid = true) ∨
  (a.invalid = b.invalid ∧
    (a.resultWord.length < b.resultWord.length ∨
      (a.resultWord.length = b.resultWord.length ∧
        lexLE a.resultWord b.resultWord = true)))

/-! ### Order facts about the sort comparators -/

theorem lexLE_total : ∀ a b, lexLE a b = true ∨ lexLE b a = true
  | [], _ => Or.inl rfl
  | _ :: _, [] => Or.inr rfl
  | a :: as, b :: bs => by
    rcases lt_trichotomy a b with h | h | h
    · left; simp [lexLE, h]
    · subst h
      rcases lexLE_total as bs with h' | h'
      · left; simpa [lexLE, lt_irrefl] using h'
      · right; simpa [lexLE, lt_irrefl] using h'
    · right; simp [lexLE, h]

theorem lexLE_trans : ∀ a b c, lexLE a b = true → lexLE b c = true → lexLE a c = true
  | [], _, _, _, _ => rfl
  | _ :: _, [], _, hab, _ => by simp [lexLE] at hab
  | _ :: _, _ :: _, [], _, hbc => by simp [lexLE] at hbc
  | a :: as, b :: bs, c :: cs, hab, hbc => by
    rcases lt_trichotomy a b with h1 | h1 | h1
    · rcases lt_trichotomy b c with h2 | h2 | h2
      · simp [lexLE, lt_trans h1 h2]
      · subst h2; simp [lexLE, h1]
      · simp [lexLE, h2, lt_asymm h2] at hbc
    · subst h1
      rcases lt_trichotomy a c with h2 | h2 | h2
      · simp [lexLE, h2]
      · subst h2
        simp only [lexLE, if_neg (lt_irrefl a)] at hab hbc ⊢
        exact lexLE_trans as bs cs hab hbc
      · simp [lexLE, h2, lt_asymm h2] at hbc
    · simp [lexLE, h1, lt_asymm h1] at hab

theorem stealLE_total (direction : Direction) (a b : StealResult) :
    stealLE direction a b = true ∨ stealLE direction b a = true := by
  unfold stealLE
  by_cases h1 : a.invalid = b.invalid
  · rw [if_neg (show ¬(a.invalid ≠ b.invalid) by simp [h1]),
      if_neg (show ¬(b.invalid ≠ a.invalid) by simp [h1])]
    by_cases h2 : a.word.length = b.word.length
    · rw [if_neg (show ¬(a.word.length ≠ b.word.length) by omega),
        if_neg (show ¬(b.word.length ≠ a.word.length) by omega)]
      exact lexLE_total a.word b.word
    · rw [if_pos (show a.word.length ≠ b.word.length by omega),
        if_pos (show b.word.length ≠ a.word.length by omega)]
      cases direction <;> simp only [decide_eq_true_eq] <;> omega
  · rw [if_pos (show a.invalid ≠ b.invalid by simpa using h1),
      if_pos (show b.invalid ≠ a.invalid by simpa [eq_comm] using h1)]
    cases hav : a.invalid with
    | false => exact Or.inl (by simp)
    | true =>
      have hb : b.invalid = false := by
        cases hbv : b.invalid
        · rfl
        · exact absurd (hav.trans hbv.symm) h1
      exact Or.inr (by simp [hb])

theorem stealLE_trans (direction : Direction) (a b c : StealResult)
    (hab : stealLE direction a b = true) (hbc : stealLE direction b c = true) :
    stealLE direction a c = true := by
  unfold stealLE at hab hbc ⊢
  by_cases h1 : a.invalid = b.invalid <;> by_cases h2 : b.invalid = c.invalid
  · have hac : a.invalid = c.invalid := h1.trans h2
    rw [if_neg (show ¬(a.invalid ≠ b.invalid) by simp [h1])] at hab
    rw [if_neg (show ¬(b.invalid ≠ c.invalid) by simp [h2])] at hbc
    rw [if_neg (show ¬(a.invalid ≠ c.invalid) by simp [hac])]
    by_cases l1 : a.word.length = b.word.length <;>
      by_cases l2 : b.word.length = c.word.length
    · rw [if_neg (show ¬(a.word.length ≠ b.word.length) by omega)] at hab
      rw [if_neg (show ¬(b.word.length ≠ c.word.length) by omega)] at hbc
      rw [if_neg (show ¬(a.word.length ≠ c.word.length) by omega)]
      exact lexLE_trans a.word b.word c.word hab hbc
    · rw [if_neg (show ¬(a.word.length ≠ b.word.length) by omega)] at hab
      rw [if_pos (show b.word.length ≠ c.word.length by omega)] at hbc
      rw [if_pos (show a.word.length ≠ c.word.length by omega)]
      cases direction <;> simp only [decide_eq_true_eq] at hbc ⊢ <;> omega
    · rw [if_pos (show a.word.length ≠ b.word.length by omega)] at hab
      rw [if_neg (show ¬(b.word.length ≠ c.word.length) by omega)] at hbc
      rw [if_pos (show a.word.length ≠ c.word.length by omega)]
      cases direction <;> simp only [decide_eq_true_eq] at hab ⊢ <;> omega
    · rw [if_pos (show a.word.length ≠ b.word.length by omega)] at hab
      rw [if_pos (show b.word.length ≠ c.word.length by omega)] at hbc
      cases direction <;> simp only [decide_eq_true_eq] at hab hbc <;>
        · rw [if_pos (show a.word.length ≠ c.word.length by omega)]
          simp only [decide_eq_true_eq]
          omega
  · rw [if_neg (show ¬(a.invalid ≠ b.invalid) by simp [h1])] at hab
    rw [if_pos (show b.invalid ≠ c.invalid by simpa using h2)] at hbc
    have hb : b.invalid = false := by simpa using hbc
    have ha : a.invalid = false := h1 ▸ hb
    have hc : c.invalid = true := by
      cases hcv : c.invalid
      · exact absurd (hb.trans hcv.symm) h2
      · rfl
    rw [if_pos (show a.invalid ≠ c.invalid by simp [ha, hc])]
    simp [ha]
  · rw [if_pos (show a.invalid ≠ b.invalid by simpa using h1)] at hab
    have ha : a.invalid = false := by simpa using hab
    have hb : b.invalid = true := by
      cases hbv : b.invalid
      · exact absurd (ha.trans hbv.symm) h1
      · rfl
    have hc : c.invalid = true := h2 ▸ hb
    rw [if_pos (show a.invalid ≠ c.invalid by simp [ha, hc])]
    simp [ha]
  · rw [if_pos (show a.invalid ≠ b.invalid by simpa using h1)] at hab
    rw [if_pos (show b.invalid ≠ c.invalid by simpa using h2)] at hbc
    have ha : a.invalid = false := by simpa using hab
    have hb : b.invalid = false := by simpa using hbc
    exact absurd (ha.trans hb.symm) h1

theorem mergeLE_total (a b : MergeResult) : mergeLE a b = true ∨ mergeLE b a = true := by
  unfold mergeLE
  by_cases h1 : a.invalid = b.invalid
  · rw [if_neg (show ¬(a.invalid ≠ b.invalid) by simp [h1]),
      if_neg (show ¬(b.invalid ≠ a.invalid) by simp [h1])]
    simp only
    by_cases h2 : a.word1.length + a.word2.length = b.word1.length + b.word2.length
    · rw [if_neg (show ¬(b.word1.length + b.word2.length ≠
          a.word1.length + a.word2.length) by omega),
        if_neg (show ¬(a.word1.length + a.word2.length ≠
          b.word1.length + b.word2.length) by omega)]
      exact lexLE_total a.word1 b.word1
    · rw [if_pos (show b.word1.length + b.word2.length ≠
          a.word1.length + a.word2.length by omega),
        if_pos (show a.word1.length + a.word2.length ≠
          b.word1.length + b.word2.length by omega)]
      simp only [decide_eq_true_eq]; omega
  · rw [if_pos (show a.invalid ≠ b.invalid by simpa using h1),
      if_pos (show b.invalid ≠ a.invalid by simpa [eq_comm] using h1)]
    cases hav : a.invalid with
    | false => exact Or.inl (by simp)
    | true =>
      have hb : b.invalid = false := by
        cases hbv : b.invalid
        · rfl
        · exact absurd (hav.trans hbv.symm) h1
      exact Or.inr (by simp [hb])

theorem mergeLE_trans (a b c : MergeResult)
    (hab : mergeLE a b = true) (hbc : mergeLE b c = true) : mergeLE a c = true := by
  unfold mergeLE at hab hbc ⊢
  by_cases h1 : a.invalid = b.invalid <;> by_cases h2 : b.invalid = c.invalid
  · have hac : a.invalid = c.invalid := h1.trans h2
    rw [if_neg (show ¬(a.invalid ≠ b.invalid) by simp [h1])] at hab
    rw [if_neg (show ¬(b.invalid ≠ c.invalid) by simp [h2])] at hbc
    rw [if_neg (show ¬(a.invalid ≠ c.invalid) by simp [hac])]
    simp only at hab hbc ⊢
    by_cases l1 : a.word1.length + a.word2.length = b.word1.length + b.word2.length <;>
      by_cases l2 : b.word1.length + b.word2.length = c.word1.length + c.word2.length
    · rw [if_neg (show ¬(b.word1.length + b.word2.length ≠
          a.word1.length + a.word2.length) by omega)] at hab
      rw [if_neg (show ¬(c.word1.length + c.word2.length ≠
          b.word1.length + b.word2.length) by omega)] at hbc
      rw [if_neg (show ¬(c.word1.length + c.word2.length ≠
          a.word1.length + a.word2.length) by omega)]
      exact lexLE_trans a.word1 b.word1 c.word1 hab hbc
    · rw [if_pos (show c.word1.length + c.word2.length ≠
          b.word1.length + b.word2.length by omega)] at hbc
      rw [if_pos (show c.word1.length + c.word2.length ≠
          a.word1.length + a.word2.length by omega)]
      simp only [decide_eq_true_eq] at hbc ⊢; omega
    · rw [if_pos (show b.word1.length + b.word2.length ≠
          a.word1.length + a.word2.length by omega)] at hab
      rw [if_pos (show c.word1.length + c.word2.length ≠
          a.word1.length + a.word2.length by omega)]
      simp only [decide_eq_true_eq] at hab ⊢; omega
    · rw [if_pos (show b.word1.length + b.word2.length ≠
          a.word1.length + a.word2.length by omega)] at hab
      rw [if_pos (show c.word1.length + c.word2.length ≠
          b.word1.length + b.word2.length by omega)] at hbc
      simp only [decide_eq_true_eq] at hab hbc
      rw [if_pos (show c.word1.length + c.word2.length ≠
          a.word1.length + a.word2.length by omega)]
      simp only [decide_eq_true_eq]; omega
  · rw [if_neg (show ¬(a.invalid ≠ b.invalid) by simp [h1])] at hab
    rw [if_pos (show b.invalid ≠ c.invalid by simpa using h2)] at hbc
    have hb : b.invalid = false := by simpa using hbc
    have ha : a.invalid = false := h1 ▸ hb
    have hc : c.invalid = true := by
      cases hcv : c.invalid
      · exact absurd (hb.trans hcv.symm) h2
      · rfl
    rw [if_pos (show a.invalid ≠ c.invalid by simp [ha, hc])]
    simp [ha]
  · rw [if_pos (show a.invalid ≠ b.invalid by simpa using h1)] at hab
    have ha : a.invalid = false := by simpa using hab
    have hb : b.invalid = true := by
      cases hbv : b.invalid
      · exact absurd (ha.trans hbv.symm) h1
      · rfl
    have hc : c.invalid = true := h2 ▸ hb
    rw [if_pos (show a.invalid ≠ c.invalid by simp [ha, hc])]
    simp [ha]
  · rw [if_pos (show a.invalid ≠ b.invalid by simpa using h1)] at hab
    rw [if_pos (show b.invalid ≠ c.invalid by simpa using h2)] at hbc
    have ha : a.invalid = false := by simpa using hab
    have hb : b.invalid = false := by simpa using hbc
    exact absurd (ha.trans hb.symm) h1

theorem mergeToLE_total (a b : MergeToResult) :
    mergeToLE a b = true ∨ mergeToLE b a = true := by
  unfold mergeToLE
  by_cases h1 : a.invalid = b.invalid
  · rw [if_neg (show ¬(a.invalid ≠ b.invalid) by simp [h1]),
      if_neg (show ¬(b.invalid ≠ a.invalid) by simp [h1])]
    by_cases h2 : a.resultWord.length = b.resultWord.length
    · rw [if_neg (show ¬(a.resultWord.length ≠ b.resultWord.length) by omega),
        if_neg (show ¬(b.resultWord.length ≠ a.resultWord.length) by omega)]
      by_cases h3 : a.otherWord.length = b.otherWord.length
      · rw [if_neg (show ¬(b.otherWord.length ≠ a.otherWord.length) by omega),
          if_neg (show ¬(a.otherWord.length ≠ b.otherWord.length) by omega)]
        exact lexLE_total a.resultWord b.resultWord
      · rw [if_pos (show b.otherWord.length ≠ a.otherWord.length by omega),
          if_pos (show a.otherWord.length ≠ b.otherWord.length by omega)]
        simp only [decide_eq_true_eq]; omega
    · rw [if_pos (show a.resultWord.length ≠ b.resultWord.length by omega),
        if_pos (show b.resultWord.length ≠ a.resultWord.length by omega)]
      simp only [decide_eq_true_eq]; omega
  · rw [if_pos (show a.invalid ≠ b.invalid by simpa using h1),
      if_pos (show b.invalid ≠ a.invalid by simpa [eq_comm] using h1)]
    cases hav : a.invalid with
    | false => exact Or.inl (by simp)
    | true =>
      have hb : b.invalid = false := by
        cases hbv : b.invalid
        · rfl
        · exact absurd (hav.trans hbv.symm) h1
      exact Or.inr (by simp [hb])

theorem mergeToLE_trans (a b c : MergeToResult)
    (hab : mergeToLE a b = true) (hbc : mergeToLE b c = true) : mergeToLE a c = true := by
  unfold mergeToLE at hab hbc ⊢
  by_cases h1 : a.invalid = b.invalid <;> by_cases h2 : b.invalid = c.invalid
  · have hac : a.invalid = c.invalid := h1.trans h2
    rw [if_neg (show ¬(a.invalid ≠ b.invalid) by simp [h1])] at hab
    rw [if_neg (show ¬(b.invalid ≠ c.invalid) by simp [h2])] at hbc
    rw [if_neg (show ¬(a.invalid ≠ c.invalid) by simp [hac])]
    by_cases l1 : a.resultWord.length = b.resultWord.length <;>
      by_cases l2 : b.resultWord.length = c.resultWord.length
    · rw [if_neg (show ¬(a.resultWord.length ≠ b.resultWord.length) by omega)] at hab
      rw [if_neg (show ¬(b.resultWord.length ≠ c.resultWord.length) by omega)] at hbc
      rw [if_neg (show ¬(a.resultWord.length ≠ c.resultWord.length) by omega)]
      by_cases m1 : b.otherWord.length = a.otherWord.length <;>
        by_cases m2 : c.otherWord.length = b.otherWord.length
      · rw [if_neg (show ¬(b.otherWord.length ≠ a.otherWord.length) by omega)] at hab
        rw [if_neg (show ¬(c.otherWord.length ≠ b.otherWord.length) by omega)] at hbc
        rw [if_neg (show ¬(c.otherWord.length ≠ a.otherWord.length) by omega)]
        exact lexLE_trans a.resultWord b.resultWord c.resultWord hab hbc
      · rw [if_pos (show c.otherWord.length ≠ b.otherWord.length by omega)] at hbc
        rw [if_pos (show c.otherWord.length ≠ a.otherWord.length by omega)]
        simp only [decide_eq_true_eq] at hbc ⊢; omega
      · rw [if_pos (show b.otherWord.length ≠ a.otherWord.length by omega)] at hab
        rw [if_pos (show c.otherWord.length ≠ a.otherWord.length by omega)]
        simp only [decide_eq_true_eq] at hab ⊢; omega
      · rw [if_pos (show b.otherWord.length ≠ a.otherWord.length by omega)] at hab
        rw [if_pos (show c.otherWord.length ≠ b.otherWord.length by omega)] at hbc
        simp only [decide_eq_true_eq] at hab hbc
        rw [if_pos (show c.otherWord.length ≠ a.otherWord.length by omega)]
        simp only [decide_eq_true_eq]; omega
    · rw [if_pos (show b.resultWord.length ≠ c.resultWord.length by omega)] at hbc
      rw [if_pos (show a.resultWord.length ≠ c.resultWord.length by omega)]
      simp only [decide_eq_true_eq] at hbc ⊢; omega
    · rw [if_pos (show a.resultWord.length ≠ b.resultWord.length by omega)] at hab
      rw [if_pos (show a.resultWord.length ≠ c.resultWord.length by omega)]
      simp only [decide_eq_true_eq] at hab ⊢; omega
    · rw [if_pos (show a.resultWord.length ≠ b.resultWord.length by omega)] at hab
      rw [if_pos (show b.resultWord.length ≠ c.resultWord.length by omega)] at hbc
      simp only [decide_eq_true_eq] at hab hbc
      rw [if_pos (show a.resultWord.length ≠ c.resultWord.length by omega)]
      simp only [decide_eq_true_eq]; omega
  · rw [if_neg (show ¬(a.invalid ≠ b.invalid) by simp [h1])] at hab
    rw [if_pos (show b.invalid ≠ c.invalid by simpa using h2)] at hbc
    have hb : b.invalid = false := by simpa using hbc
    have ha : a.invalid = false := h1 ▸ hb
    have hc : c.invalid = true := by
      cases hcv : c.invalid
      · exact absurd (hb.trans hcv.symm) h2
      · rfl
    rw [if_pos (show a.invalid ≠ c.invalid by simp [ha, hc])]
    simp [ha]
  · rw [if_pos (show a.invalid ≠ b.invalid by simpa using h1)] at hab
    have ha : a.invalid = false := by simpa using hab
    have hb : b.invalid = true := by
      cases hbv : b.invalid
      · exact absurd (ha.trans hbv.symm) h1
      · rfl
    have hc : c.invalid = true := h2 ▸ hb
    rw [if_pos (show a.invalid ≠ c.invalid by simp [ha, hc])]
    simp [ha]
  · rw [if_pos (show a.invalid ≠ b.invalid by simpa using h1)] at hab
    rw [if_pos (show b.invalid ≠ c.invalid by simpa using h2)] at hbc
    have ha : a.invalid = false := by simpa using hab
    have hb : b.invalid = false := by simpa using hbc
    exact absurd (ha.trans hb.symm) h1

/-! ### Multiset bridge lemmas -/

theorem isStrictSubset_iff (s l : LetterCounts) :
    isStrictSubset s l = true ↔ (↑s : Multiset Char) ≤ ↑l ∧ s.length < l.length := by
  unfold isStrictSubset
  rw [decide_eq_true_iff]
  constructor
  · rintro ⟨h1, h2⟩
    refine ⟨Multiset.le_iff_count.mpr fun a => ?_, h2⟩
    by_cases ha : a ∈ s
    · simpa [Multiset.coe_count] using h1 a ha
    · simp [Multiset.coe_count, List.count_eq_zero_of_not_mem ha]
  · rintro ⟨h1, h2⟩
    exact ⟨fun c _ => by
      simpa [Multiset.coe_count] using Multiset.le_iff_count.mp h1 c, h2⟩

theorem isSubsetCounts_iff (s t : LetterCounts) :
    isSubsetCounts s t = true ↔ (↑s : Multiset Char) ≤ ↑t := by
  unfold isSubsetCounts
  rw [decide_eq_true_iff]
  constructor
  · intro h
    refine Multiset.le_iff_count.mpr fun a => ?_
    by_cases ha : a ∈ s
    · simpa [Multiset.coe_count] using h a ha
    · simp [Multiset.coe_count, List.count_eq_zero_of_not_mem ha]
  · intro h c _
    simpa [Multiset.coe_count] using Multiset.le_iff_count.mp h c

theorem coe_getAddedLetters (s l : LetterCounts) :
    ((getAddedLetters s l : List Char) : Multiset Char) = (↑l : Multiset Char) - ↑s := by
  unfold getAddedLetters
  rw [Multiset.coe_eq_coe.mpr (List.perm_insertionSort _ _)]
  exact (Multiset.coe_sub l s).symm

/-- The counts-plus-added-letters reconstruction underlying the engine's
core invariant: whenever `smaller ≤ larger` as multisets, the letters of
`smaller` together with `getAddedLetters smaller larger` are exactly the
letters of `larger`. -/
theorem getAddedLetters_add_eq (s l : LetterCounts)
    (h : (↑s : Multiset Char) ≤ ↑l) :
    (↑s : Multiset Char) + ↑(getAddedLetters s l) = ↑l := by
  rw [coe_getAddedLetters]
  exact add_tsub_cancel_of_le h

/-! ### Membership characterization of the single-word searches -/

theorem mem_findStealsFrom (ctx : Ctx) (w : Word) (r : FromResult) :
    r ∈ findStealsFrom ctx w ↔ ∃ word ∈ ctx.wordList,
      MIN_WORD_LENGTH ≤ word.length ∧ word.length < w.length ∧
      isStrictSubset word w = true ∧
      r = ⟨word, getAddedLetters word w, isInflection ctx word w⟩ := by
  simp only [findStealsFrom, findStealsCore, getLetterCounts, List.mem_map,
    List.mem_insertionSort, List.mem_filterMap]
  constructor
  · rintro ⟨s, ⟨word, hmem, hf⟩, hs⟩
    split_ifs at hf with h1 h2 h3
    refine ⟨word, hmem, by omega, ?_, h3, ?_⟩
    · simpa using h2
    · cases Option.some.inj hf
      exact hs.symm
  · rintro ⟨word, hmem, hlen, hlt, hsub, hr⟩
    refine ⟨⟨word, getAddedLetters word w, isInflection ctx word w⟩,
      ⟨word, hmem, ?_⟩, by rw [hr]⟩
    rw [if_neg (by omega), if_neg (by simpa using hlt), if_pos hsub]

theorem mem_findStealsTo (ctx : Ctx) (w : Word) (r : ToResult) :
    r ∈ findStealsTo ctx w ↔ ∃ word ∈ ctx.wordList,
      MIN_WORD_LENGTH ≤ word.length ∧ w.length < word.length ∧
      isStrictSubset w word = true ∧
      r = ⟨word, getAddedLetters w word, isInflection ctx w word⟩ := by
  simp only [findStealsTo, findStealsCore, getLetterCounts, List.mem_map,
    List.mem_insertionSort, List.mem_filterMap]
  constructor
  · rintro ⟨s, ⟨word, hmem, hf⟩, hs⟩
    split_ifs at hf with h1 h2 h3
    refine ⟨word, hmem, by omega, ?_, h3, ?_⟩
    · simpa using h2
    · cases Option.some.inj hf
      exact hs.symm
  · rintro ⟨word, hmem, hlen, hlt, hsub, hr⟩
    refine ⟨⟨word, getAddedLetters w word, isInflection ctx w word⟩,
      ⟨word, hmem, ?_⟩, by rw [hr]⟩
    rw [if_neg (by omega), if_neg (by simpa using hlt), if_pos hsub]

/-! ### Fold and string helper lemmas -/

theorem foldl_preserve {σ α : Type _} (P : σ → Prop) (f : σ → α → σ) :
    ∀ (l : List α) (s : σ), (∀ s' x, x ∈ l → P s' → P (f s' x)) → P s →
      P (l.foldl f s)
  | [], _, _, hs => hs
  | x :: xs, s, hf, hs =>
    foldl_preserve P f xs (f s x)
      (fun s' y hy => hf s' y (List.mem_cons_of_mem _ hy))
      (hf s x (List.mem_cons_self _ _) hs)

theorem mem_orderedPairs {α : Type _} :
    ∀ {l : List α} {p : α × α}, p ∈ orderedPairs l → p.1 ∈ l ∧ p.2 ∈ l := by
  intro l
  induction l with
  | nil => intro p hp; simp [orderedPairs] at hp
  | cons x xs ih =>
    intro p hp
    simp only [orderedPairs, List.mem_append, List.mem_map] at hp
    rcases hp with ⟨y, hy, rfl⟩ | hp
    · exact ⟨List.mem_cons_self _ _, List.mem_cons_of_mem _ hy⟩
    · rcases ih hp with ⟨h1, h2⟩
      exact ⟨List.mem_cons_of_mem _ h1, List.mem_cons_of_mem _ h2⟩

theorem listStartsWith_iff : ∀ w p : List Char,
    listStartsWith w p = true ↔ ∃ t, w = p ++ t
  | w, [] => by simp [listStartsWith]
  | [], b :: bs => by simp [listStartsWith]
  | a :: as, b :: bs => by
    simp only [listStartsWith, Bool.and_eq_true, beq_iff_eq,
      listStartsWith_iff as bs]
    constructor
    · rintro ⟨rfl, t, rfl⟩
      exact ⟨t, rfl⟩
    · rintro ⟨t, ht⟩
      rcases List.cons.inj ht with ⟨rfl, h2⟩
      exact ⟨rfl, t, h2⟩

theorem listEndsWith_iff (w s : List Char) :
    listEndsWith w s = true ↔ ∃ t, w = t ++ s := by
  unfold listEndsWith
  rw [listStartsWith_iff]
  constructor
  · rintro ⟨t, ht⟩
    refine ⟨t.reverse, ?_⟩
    have h := congrArg List.reverse ht
    simpa using h
  · rintro ⟨t, rfl⟩
    exact ⟨t.reverse, by simp⟩

theorem etymologiesMatch_iff (lowerNFD : List Char → List Char) (t1 t2 : Tag) :
    etymologiesMatch lowerNFD t1 t2 = true ↔ tagsMatchSpec lowerNFD t1 t2 := by
  unfold etymologiesMatch tagsMatchSpec isSuffixOf
  by_cases heq : t1 = t2
  · simp [heq]
  · rw [if_neg heq]
    rcases h1 : (splitTag t1).2 with _ | r1 <;> rcases h2 : (splitTag t2).2 with _ | r2
    · simp [heq, h1, h2]
    · simp [heq, h1, h2]
    · simp [heq, h1, h2]
    · simp only [h1, h2]
      by_cases hc : (splitTag t1).1 = (splitTag t2).1 ∧ r1 ≠ [] ∧ r2 ≠ []
      · rw [if_pos (show (decide ((splitTag t1).1 = (splitTag t2).1) &&
            !r1.isEmpty && !r2.isEmpty) = true by
            simp [hc.1, hc.2.1, hc.2.2])]
        by_cases hlen : 3 ≤ (normalizeRoot lowerNFD r1).length ∧
            3 ≤ (normalizeRoot lowerNFD r2).length
        · rw [if_pos (show (decide (3 ≤ (normalizeRoot lowerNFD r1).length) &&
              decide (3 ≤ (normalizeRoot lowerNFD r2).length)) = true by
              simp [hlen.1, hlen.2])]
          simp only [Bool.or_eq_true, listEndsWith_iff]
          constructor
          · intro h
            exact Or.inr ⟨hc.1, r1, r2, rfl, rfl, hc.2.1, hc.2.2, hlen.1, hlen.2, h⟩
          · rintro (h | ⟨_, r1', r2', he1, he2, _, _, _, _, h⟩)
            · exact absurd h heq
            · cases Option.some.inj he1
              cases Option.some.inj he2
              exact h
        · rw [if_neg (show ¬((decide (3 ≤ (normalizeRoot lowerNFD r1).length) &&
              decide (3 ≤ (normalizeRoot lowerNFD r2).length)) = true) by
              intro hcon
              rw [Bool.and_eq_true, decide_eq_true_eq, decide_eq_true_eq] at hcon
              exact hlen hcon)]
          simp only [Bool.false_eq_true, false_iff]
          rintro (h | ⟨_, r1', r2', he1, he2, _, _, hl1, hl2, _⟩)
          · exact absurd h heq
          · cases Option.some.inj he1
            cases Option.some.inj he2
            exact hlen ⟨hl1, hl2⟩
      · rw [if_neg (show ¬((decide ((splitTag t1).1 = (splitTag t2).1) &&
            !r1.isEmpty && !r2.isEmpty) = true) by
            intro hcon
            rw [Bool.and_eq_true, Bool.and_eq_true] at hcon
            obtain ⟨⟨ha, hb⟩, hc'⟩ := hcon
            rw [decide_eq_true_eq] at ha
            rw [Bool.not_eq_true', List.isEmpty_eq_false] at hb hc'
            exact hc ⟨ha, hb, hc'⟩)]
        simp only [Bool.false_eq_true, false_iff]
        rintro (h | ⟨ha, r1', r2', he1, he2, hb, hc', _⟩)
        · exact absurd h heq
        · cases Option.some.inj he1
          cases Option.some.inj he2
          exact hc ⟨ha, hb, hc'⟩

example : lexLE "LANE".toList "PLAN".toList = true := by decide
example : listEndsWith "CATS".toList "S".toList = true := by decide
example : listContainsSub "CATFISH".toList "FISH".toList = true := by decide
example : getAddedLetters "LANE".toList "PLANE".toList = "P".toList := by decide
example : isStrictSubset "LANE".toList "PLANE".toList = true := by decide
example : isStrictSubset "LANE".toList "LEAN".toList = false := by decide
example : splitTag "latin:fixus".toList = ("latin".toList, some "fixus".toList) := by decide
example : etymologiesMatch id "latin:fixus".toList "latin:suffixus".toList = true := by decide
example : etymologiesMatch id "latin:fixus".toList "greek:fixus".toList = false := by decide
example : checkWord ["CATS".toList] true " cats ".toList = some "valid" := by decide
example : checkWord ["CATS".toList] true "".toList = none := by decide
example : checkWord ["CATS".toList] true "cat".toList = some "too_short" := by decide
example : isInflection (testCtx []) "CAT".toList "CATS".toList = true := by decide
example : isInflection (testCtx []) "FROG".toList "FROGGING".toList = true := by decide
example : isInflection (testCtx []) "LANE".toList "PLANE".toList = false := by decide
example : findStealsFrom (testCtx ["PLANE".toList, "LANE".toList, "PLAN".toList])
    "PLANE".toList =
    [⟨"LANE".toList, "P".toList, false⟩, ⟨"PLAN".toList, "E".toList, false⟩] := by decide
example : findStealsTo (testCtx ["CAT".toList, "CATS".toList]) "CAT".toList =
    [⟨"CATS".toList, "S".toList, true⟩] := by decide
example : findMergeSteals (testCtx ["AAAA".toList, "BBBB".toList, "AAAABBBBC".toList])
    "AAAABBBBC".toList 200 =
    [⟨"AAAA".toList, "BBBB".toList, "C".toList, true⟩] := by decide
example : findMergeStealsTo (testCtx ["AAAA".toList, "BBBB".toList, "AAAABBBBC".toList])
    "AAAA".toList 200 =
    [⟨"BBBB".toList, "C".toList, "AAAABBBBC".toList, true⟩] := by decide
example : findMergeSteals (testCtx ["AAAA".toList]) "AAAABBBB".toList 200 = [] := by decide

/-! ## Claim theorems -/

/-- C1: for every reference word `w` and every result of `findStealsFrom w`,
the letter counts of `baseWord` are a strict multiset subset of the counts
of `w` and `baseWord`'s letters plus the `addedLetters` characters equal
`w`'s letters exactly; symmetrically, for every result of `findStealsTo w`,
`w`'s letters plus the result's `addedLetters` equal the `resultWord`'s
letters exactly. -/
theorem steal_subset_invariant (ctx : Ctx) (w : Word) :
    (∀ r ∈ findStealsFrom ctx w,
      (↑r.baseWord : Multiset Char) ≤ ↑w ∧
      Multiset.card (↑r.baseWord : Multiset Char) <
        Multiset.card (↑w : Multiset Char) ∧
      (↑r.baseWord + ↑r.addedLetters : Multiset Char) = ↑w) ∧
    (∀ r ∈ findStealsTo ctx w,
      (↑w + ↑r.addedLetters : Multiset Char) = ↑r.resultWord) := by
  constructor
  · intro r hr
    rw [mem_findStealsFrom] at hr
    obtain ⟨word, _, _, _, hsub, rfl⟩ := hr
    rw [isStrictSubset_iff] at hsub
    obtain ⟨hle, hlt⟩ := hsub
    exact ⟨hle, by simpa [Multiset.coe_card] using hlt,
      getAddedLetters_add_eq word w hle⟩
  · intro r hr
    rw [mem_findStealsTo] at hr
    obtain ⟨word, _, _, _, hsub, rfl⟩ := hr
    rw [isStrictSubset_iff] at hsub
    exact getAddedLetters_add_eq w word hsub.1

/-- Closed instance of C1 at a concrete dictionary: stealing `LANE` from
`PLANE` and stealing `CAT` to `CATS`. -/
theorem steal_subset_invariant_witness :
    ((↑"LANE".toList : Multiset Char) ≤ ↑"PLANE".toList ∧
      Multiset.card (↑"LANE".toList : Multiset Char) <
        Multiset.card (↑"PLANE".toList : Multiset Char) ∧
      (↑"LANE".toList + ↑"P".toList : Multiset Char) = ↑"PLANE".toList) ∧
    (↑"CAT".toList + ↑"S".toList : Multiset Char) = ↑"CATS".toList :=
  ⟨(steal_subset_invariant
      (testCtx ["PLANE".toList, "LANE".toList, "PLAN".toList]) "PLANE".toList).1
      ⟨"LANE".toList, "P".toList, false⟩ (by decide),
    (steal_subset_invariant (testCtx ["CAT".toList, "CATS".toList]) "CAT".toList).2
      ⟨"CATS".toList, "S".toList, true⟩ (by decide)⟩

/-- C5 counterexample: on the empty word (with the dictionary loaded),
`checkWord` returns `null` (modelled by `none`), which is none of the three
claimed values `'too_short'`, `'valid'`, `'invalid'`. -/
theorem checkWord_null_counterexample :
    checkWord [] true [] ≠ some "too_short" ∧
    checkWord [] true [] ≠ some "valid" ∧
    checkWord [] true [] ≠ some "invalid" := by
  refine ⟨?_, ?_, ?_⟩ <;> decide

/-- C5 (amended): when the dictionary is loaded and the trimmed word is
non-empty, `checkWord` returns exactly one of `'too_short'`, `'valid'`,
`'invalid'` — `'too_short'` iff the trimmed uppercased word is shorter than
`MIN_WORD_LENGTH`, `'valid'` iff it is long enough and a dictionary member,
`'invalid'` iff it is long enough and not a member. -/
theorem checkWord_three_values (wordList : List Word) (word : Word)
    (hne : jsTrim word ≠ []) :
    (checkWord wordList true word = some "too_short" ∨
      checkWord wordList true word = some "valid" ∨
      checkWord wordList true word = some "invalid") ∧
    (checkWord wordList true word = some "too_short" ↔
      ((jsTrim word).map Char.toUpper).length < MIN_WORD_LENGTH) ∧
    (checkWord wordList true word = some "valid" ↔
      (MIN_WORD_LENGTH ≤ ((jsTrim word).map Char.toUpper).length ∧
        (jsTrim word).map Char.toUpper ∈ wordList)) ∧
    (checkWord wordList true word = some "invalid" ↔
      (MIN_WORD_LENGTH ≤ ((jsTrim word).map Char.toUpper).length ∧
        (jsTrim word).map Char.toUpper ∉ wordList)) := by
  have hnem : ¬((((jsTrim word).map Char.toUpper).isEmpty || !true) = true) := by
    simp [hne]
  unfold checkWord
  rw [if_neg hnem]
  by_cases hlen : ((jsTrim word).map Char.toUpper).length < MIN_WORD_LENGTH
  · rw [if_pos hlen]
    refine ⟨Or.inl rfl, ⟨fun _ => hlen, fun _ => rfl⟩, ?_, ?_⟩
    · exact ⟨fun h => absurd h (by decide),
        fun h => absurd hlen (by omega)⟩
    · exact ⟨fun h => absurd h (by decide),
        fun h => absurd hlen (by omega)⟩
  · rw [if_neg hlen]
    by_cases hmem : ((jsTrim word).map Char.toUpper) ∈ wordList
    · rw [if_pos hmem]
      refine ⟨Or.inr (Or.inl rfl), ?_, ?_, ?_⟩
      · exact ⟨fun h => absurd h (by decide), fun h => absurd h hlen⟩
      · exact ⟨fun _ => ⟨by omega, hmem⟩, fun _ => rfl⟩
      · exact ⟨fun h => absurd h (by decide), fun h => absurd hmem h.2⟩
    · rw [if_neg hmem]
      refine ⟨Or.inr (Or.inr rfl), ?_, ?_, ?_⟩
      · exact ⟨fun h => absurd h (by decide), fun h => absurd h hlen⟩
      · exact ⟨fun h => absurd h (by decide), fun h => absurd h.2 hmem⟩
      · exact ⟨fun _ => ⟨by omega, hmem⟩, fun _ => rfl⟩

/-- Closed instance of the amended C5: `" cat "` normalizes to `CAT`, which
is shorter than `MIN_WORD_LENGTH`. -/
theorem checkWord_three_values_witness :
    jsTrim " cat ".toList ≠ [] ∧
    ((checkWord ["CATS".toList] true " cat ".toList = some "too_short" ∨
      checkWord ["CATS".toList] true " cat ".toList = some "valid" ∨
      checkWord ["CATS".toList] true " cat ".toList = some "invalid") ∧
    (checkWord ["CATS".toList] true " cat ".toList = some "too_short" ↔
      ((jsTrim " cat ".toList).map Char.toUpper).length < MIN_WORD_LENGTH) ∧
    (checkWord ["CATS".toList] true " cat ".toList = some "valid" ↔
      (MIN_WORD_LENGTH ≤ ((jsTrim " cat ".toList).map Char.toUpper).length ∧
        (jsTrim " cat ".toList).map Char.toUpper ∈ ["CATS".toList])) ∧
    (checkWord ["CATS".toList] true " cat ".toList = some "invalid" ↔
      (MIN_WORD_LENGTH ≤ ((jsTrim " cat ".toList).map Char.toUpper).length ∧
        (jsTrim " cat ".toList).map Char.toUpper ∉ ["CATS".toList]))) :=
  ⟨by decide, checkWord_three_values ["CATS".toList] " cat ".toList (by decide)⟩

/-- C8: merge search on a target shorter than `MIN_MERGE_LENGTH` returns
the empty list (no error is signalled), and no single-word steal result has
a candidate shorter than `MIN_WORD_LENGTH`. -/
theorem min_length_gating :
    (∀ (ctx : Ctx) (targetWord : Word) (maxResults : Nat),
      targetWord.length < MIN_MERGE_LENGTH →
        findMergeSteals ctx targetWord maxResults = []) ∧
    (∀ (ctx : Ctx) (w : Word), ∀ r ∈ findStealsFrom ctx w,
      MIN_WORD_LENGTH ≤ r.baseWord.length) ∧
    (∀ (ctx : Ctx) (w : Word), ∀ r ∈ findStealsTo ctx w,
      MIN_WORD_LENGTH ≤ r.resultWord.length) := by
  refine ⟨?_, ?_, ?_⟩
  · intro ctx targetWord maxResults h
    simp only [findMergeSteals]
    rw [if_pos h]
  · intro ctx w r hr
    rw [mem_findStealsFrom] at hr
    obtain ⟨word, _, hlen, _, _, rfl⟩ := hr
    exact hlen
  · intro ctx w r hr
    rw [mem_findStealsTo] at hr
    obtain ⟨word, _, hlen, _, _, rfl⟩ := hr
    exact hlen

/-- Closed instance of C8: an 8-letter target yields no merge steals, and
concrete steal results have candidates of length ≥ 4. -/
theorem min_length_gating_witness :
    findMergeSteals (testCtx ["AAAA".toList]) "AAAABBBB".toList 200 = [] ∧
    MIN_WORD_LENGTH ≤ "LANE".toList.length ∧
    MIN_WORD_LENGTH ≤ "CATS".toList.length :=
  ⟨min_length_gating.1 (testCtx ["AAAA".toList]) "AAAABBBB".toList 200 (by decide),
    min_length_gating.2.1 (testCtx ["PLANE".toList, "LANE".toList]) "PLANE".toList
      ⟨"LANE".toList, "P".toList, false⟩ (by decide),
    min_length_gating.2.2 (testCtx ["CAT".toList, "CATS".toList]) "CAT".toList
      ⟨"CATS".toList, "S".toList, true⟩ (by decide)⟩

/-- C10: when both words are present in the etymology table but at least
one is mapped to an empty tag list, `shareEtymology` returns `false`, not
`null`; `null` is returned exactly when at least one entry is missing. -/
theorem shareEtymology_empty_tags (ctx : Ctx) (w1 w2 : Word) :
    (∀ l1 l2, ctx.etymology w1 = some l1 → ctx.etymology w2 = some l2 →
      l1 = [] ∨ l2 = [] → shareEtymology ctx w1 w2 = some false) ∧
    (shareEtymology ctx w1 w2 = none ↔
      (ctx.etymology w1 = none ∨ ctx.etymology w2 = none)) := by
  constructor
  · intro l1 l2 h1 h2 hemp
    simp only [shareEtymology, h1, h2]
    refine congrArg some ?_
    rcases hemp with rfl | rfl
    · simp
    · simp
  · rcases he1 : ctx.etymology w1 with _ | l1 <;>
      rcases he2 : ctx.etymology w2 with _ | l2 <;>
      simp [shareEtymology, he1, he2]

/-- Closed instance of C10: `CAT` and `DOG` are both present in the test
etymology table, `CAT` with an empty tag list, so the result is `false`;
`ZZZZ` is absent, so pairing with it yields `null`. -/
theorem shareEtymology_empty_tags_witness :
    shareEtymology etymTestCtx "CAT".toList "DOG".toList = some false ∧
    (shareEtymology etymTestCtx "CAT".toList "ZZZZ".toList = none ↔
      (etymTestCtx.etymology "CAT".toList = none ∨
        etymTestCtx.etymology "ZZZZ".toList = none)) :=
  ⟨(shareEtymology_empty_tags etymTestCtx "CAT".toList "DOG".toList).1
      [] ["latin:abc".toList] rfl rfl (Or.inl rfl),
    (shareEtymology_empty_tags etymTestCtx "CAT".toList "ZZZZ".toList).2⟩

theorem contains_eq_mem (l : List Char) (c : Char) : l.contains c = true ↔ c ∈ l := by
  simp

theorem suffixes_ne_nil : ∀ s ∈ INFLECTION_SUFFIXES, s ≠ [] := by decide

/-- C7: `isInflection` returns true exactly when the two words share an
etymological root, or (checked regardless of the etymology outcome) the
result word is the base word plus a listed suffix, the base word plus a
doubled final consonant plus a listed suffix, or a listed prefix plus the
base word; in particular, with no etymology data,
`isInflection "CAT" "CATS"` is true. -/
theorem isInflection_characterization :
    (∀ (ctx : Ctx) (baseWord resultWord : Word),
      isInflection ctx baseWord resultWord = true ↔
        (shareEtymology ctx baseWord resultWord = some true ∨
          affixRelated baseWord resultWord)) ∧
    isInflection (testCtx []) "CAT".toList "CATS".toList = true := by
  constructor
  · intro ctx baseWord resultWord
    unfold isInflection
    by_cases hety : shareEtymology ctx baseWord resultWord = some true
    · rw [if_pos hety]
      simp [hety]
    · rw [if_neg hety]
      constructor
      · intro h
        refine Or.inr ?_
        rw [Bool.or_eq_true] at h
        rcases h with h | h
        · simp only [] at h
          split_ifs at h with hsw hmem
          · rw [listStartsWith_iff] at hsw
            obtain ⟨t, rfl⟩ := hsw
            rw [List.drop_left] at hmem
            exact Or.inl ⟨t, hmem, rfl⟩
          · rcases hsfx : resultWord.drop baseWord.length with _ | ⟨d, rest⟩
            · rw [hsfx] at h
              simp at h
            · rw [hsfx] at h
              rw [Bool.and_eq_true, Bool.and_eq_true, Bool.and_eq_true] at h
              obtain ⟨⟨⟨_, hcont⟩, hends⟩, hrest⟩ := h
              rw [decide_eq_true_eq] at hrest
              rw [listStartsWith_iff] at hsw
              obtain ⟨t, rfl⟩ := hsw
              rw [List.drop_left] at hsfx
              subst hsfx
              exact Or.inr (Or.inl ⟨d, (contains_eq_mem _ _).mp hcont, rest,
                hrest, hends, rfl⟩)
        · split_ifs at h with hew
          rw [decide_eq_true_eq] at h
          rw [listEndsWith_iff] at hew
          obtain ⟨t, rfl⟩ := hew
          have htake : (t ++ baseWord).take ((t ++ baseWord).length - baseWord.length)
              = t := by
            rw [List.length_append, Nat.add_sub_cancel, List.take_left]
          rw [htake] at h
          exact Or.inr (Or.inr ⟨t, h, rfl⟩)
      · rintro (h | h)
        · exact absurd h hety
        · rw [Bool.or_eq_true]
          rcases h with ⟨s, hs, rfl⟩ | ⟨d, hd, s, hs, hends, rfl⟩ | ⟨p, hp, rfl⟩
          · left
            rw [if_pos ((listStartsWith_iff _ _).mpr ⟨s, rfl⟩)]
            simp only []
            rw [if_pos (show (baseWord ++ s).drop baseWord.length ∈
                INFLECTION_SUFFIXES by rw [List.drop_left]; exact hs)]
          · left
            rw [if_pos ((listStartsWith_iff _ _).mpr ⟨d :: s, rfl⟩)]
            simp only []
            by_cases hin : (baseWord ++ d :: s).drop baseWord.length ∈
                INFLECTION_SUFFIXES
            · rw [if_pos hin]
            · rw [if_neg hin]
              have hne : s ≠ [] := suffixes_ne_nil s hs
              have hlens : 1 ≤ s.length := by
                cases s
                · exact absurd rfl hne
                · simp
              simp only [List.drop_left, List.length_cons]
              rw [Bool.and_eq_true, Bool.and_eq_true, Bool.and_eq_true]
              exact ⟨⟨⟨by simp; omega, (contains_eq_mem _ _).mpr hd⟩, hends⟩,
                by simpa using hs⟩
          · right
            rw [if_pos ((listEndsWith_iff _ _).mpr ⟨p, rfl⟩)]
            have htake : (p ++ baseWord).take ((p ++ baseWord).length -
                baseWord.length) = p := by
              rw [List.length_append, Nat.add_sub_cancel, List.take_left]
            simp [htake, hp]
  · decide

/-- C6: `shareEtymology` is `null` exactly when either word is absent from
the etymology table; when both are present, it is `true` iff some tag of
the first matches some tag of the second under the tag-matching rule
(identical strings, or same language with both roots present, non-empty,
normalized to length ≥ 3 and one a suffix of the other), and `false`
otherwise. -/
theorem shareEtymology_characterization (ctx : Ctx) (w1 w2 : Word) :
    (shareEtymology ctx w1 w2 = none ↔
      (ctx.etymology w1 = none ∨ ctx.etymology w2 = none)) ∧
    (∀ l1 l2, ctx.etymology w1 = some l1 → ctx.etymology w2 = some l2 →
      ((shareEtymology ctx w1 w2 = some true ↔
        ∃ t1 ∈ l1, ∃ t2 ∈ l2, tagsMatchSpec ctx.lowerNFD t1 t2) ∧
      (shareEtymology ctx w1 w2 = some false ↔
        ¬ ∃ t1 ∈ l1, ∃ t2 ∈ l2, tagsMatchSpec ctx.lowerNFD t1 t2))) := by
  constructor
  · rcases he1 : ctx.etymology w1 with _ | l1 <;>
      rcases he2 : ctx.etymology w2 with _ | l2 <;>
      simp [shareEtymology, he1, he2]
  · intro l1 l2 h1 h2
    constructor
    · simp only [shareEtymology, h1, h2, Option.some.injEq, List.any_eq_true,
        etymologiesMatch_iff]
    · simp only [shareEtymology, h1, h2, Option.some.injEq, Bool.eq_false_iff,
        ne_eq, List.any_eq_true, etymologiesMatch_iff]

/-- Closed instance of C6: `FIXED` paired with the absent `ZZZZ` is
unknown, and the cognate Latin tags of `FIXED` and `SUFFIXED` drive the
`some true` / `some false` characterization. -/
theorem shareEtymology_characterization_witness :
    (shareEtymology etymTestCtx "FIXED".toList "ZZZZ".toList = none ↔
      (etymTestCtx.etymology "FIXED".toList = none ∨
        etymTestCtx.etymology "ZZZZ".toList = none)) ∧
    ((shareEtymology etymTestCtx "FIXED".toList "SUFFIXED".toList = some true ↔
      ∃ t1 ∈ ["latin:fixus".toList], ∃ t2 ∈ ["latin:suffixus".toList],
        tagsMatchSpec etymTestCtx.lowerNFD t1 t2) ∧
    (shareEtymology etymTestCtx "FIXED".toList "SUFFIXED".toList = some false ↔
      ¬ ∃ t1 ∈ ["latin:fixus".toList], ∃ t2 ∈ ["latin:suffixus".toList],
        tagsMatchSpec etymTestCtx.lowerNFD t1 t2)) :=
  ⟨(shareEtymology_characterization etymTestCtx "FIXED".toList "ZZZZ".toList).1,
    (shareEtymology_characterization etymTestCtx "FIXED".toList
      "SUFFIXED".toList).2 ["latin:fixus".toList] ["latin:suffixus".toList]
      rfl rfl⟩

theorem mergeCandidates_shape (wordList : List Word) (targetCounts : LetterCounts)
    (targetLength : Nat) (x : Word × LetterCounts)
    (hx : x ∈ wordList.filterMap (fun word =>
      if word.length < MIN_WORD_LENGTH ||
          targetLength - MIN_WORD_LENGTH - 1 < word.length then none
      else if isSubsetCounts (getLetterCounts word) targetCounts then
        some (word, getLetterCounts word)
      else none)) :
    x.2 = x.1 := by
  rw [List.mem_filterMap] at hx
  obtain ⟨a, _, ha⟩ := hx
  split_ifs at ha
  cases Option.some.inj ha
  rfl

/-- C2: every result of `findMergeSteals` for target `T` has the combined
letter counts of `word1` and `word2` a strict multiset subset of `T`'s
counts, with `addedLetters` exactly the multiset difference, so the two
words' letters plus `addedLetters` equal `T`'s letters exactly. -/
theorem merge_steal_invariant (ctx : Ctx) (targetWord : Word) (maxResults : Nat)
    (r : MergeResult) (h : r ∈ findMergeSteals ctx targetWord maxResults) :
    ((↑r.word1 + ↑r.word2 : Multiset Char) ≤ ↑targetWord) ∧
    Multiset.card (↑r.word1 + ↑r.word2 : Multiset Char) <
      Multiset.card (↑targetWord : Multiset Char) ∧
    (↑r.addedLetters : Multiset Char) =
      (↑targetWord : Multiset Char) - (↑r.word1 + ↑r.word2) ∧
    (↑r.word1 + ↑r.word2 + ↑r.addedLetters : Multiset Char) = ↑targetWord := by
  simp only [findMergeSteals] at h
  split_ifs at h with hshort
  · simp at h
  · rw [List.mem_insertionSort] at h
    revert h
    refine foldl_preserve
      (fun (st : List MergeResult × List (Word × Word)) => r ∈ st.1 →
        ((↑r.word1 + ↑r.word2 : Multiset Char) ≤ ↑targetWord) ∧
        Multiset.card (↑r.word1 + ↑r.word2 : Multiset Char) <
          Multiset.card (↑targetWord : Multiset Char) ∧
        (↑r.addedLetters : Multiset Char) =
          (↑targetWord : Multiset Char) - (↑r.word1 + ↑r.word2) ∧
        (↑r.word1 + ↑r.word2 + ↑r.addedLetters : Multiset Char) = ↑targetWord)
      _ _ _ ?_ (fun hx => by simp at hx)
    intro st p hpmem ih hx
    split_ifs at hx with hfull hlen hsub hkey
    · exact ih hx
    · exact ih hx
    · exact ih hx
    · rcases List.mem_append.mp hx with hx | hx
      · exact ih hx
      · rw [List.mem_singleton] at hx
        subst hx
        obtain ⟨hp1m, hp2m⟩ := mem_orderedPairs hpmem
        have hp1 : p.1.2 = p.1.1 := mergeCandidates_shape _ _ _ _ hp1m
        have hp2 : p.2.2 = p.2.1 := mergeCandidates_shape _ _ _ _ hp2m
        rw [hp1, hp2] at hsub
        unfold isCombinedStrictSubset combineLetterCounts at hsub
        rw [isStrictSubset_iff] at hsub
        obtain ⟨hle, hlt⟩ := hsub
        rw [show ((getLetterCounts targetWord : List Char) : Multiset Char) =
          (↑targetWord : Multiset Char) from rfl] at hle
        simp only [hp1, hp2]
        refine ⟨?_, ?_, ?_, ?_⟩
        · rw [Multiset.coe_add]
          exact hle
        · rw [Multiset.coe_add, Multiset.coe_card, Multiset.coe_card]
          simpa [List.length_append] using hlt
        · rw [show combineLetterCounts p.1.1 p.2.1 = p.1.1 ++ p.2.1 from rfl,
            coe_getAddedLetters, Multiset.coe_add]
          rfl
        · rw [Multiset.coe_add,
            show combineLetterCounts p.1.1 p.2.1 = p.1.1 ++ p.2.1 from rfl,
            coe_getAddedLetters]
          exact add_tsub_cancel_of_le hle
    · exact ih hx

/-- Closed instance of C2: merging `AAAA` and `BBBB` with added letter `C`
to make `AAAABBBBC`. -/
theorem merge_steal_invariant_witness :
    ((↑"AAAA".toList + ↑"BBBB".toList : Multiset Char) ≤ ↑"AAAABBBBC".toList) ∧
    Multiset.card (↑"AAAA".toList + ↑"BBBB".toList : Multiset Char) <
      Multiset.card (↑"AAAABBBBC".toList : Multiset Char) ∧
    (↑"C".toList : Multiset Char) =
      (↑"AAAABBBBC".toList : Multiset Char) - (↑"AAAA".toList + ↑"BBBB".toList) ∧
    (↑"AAAA".toList + ↑"BBBB".toList + ↑"C".toList : Multiset Char) =
      ↑"AAAABBBBC".toList :=
  merge_steal_invariant
    (testCtx ["AAAA".toList, "BBBB".toList, "AAAABBBBC".toList])
    "AAAABBBBC".toList 200
    ⟨"AAAA".toList, "BBBB".toList, "C".toList, true⟩ (by decide)

/-- C4: every result of `findMergeStealsTo` has a dictionary `resultWord`
whose length lies in `[len(s) + MIN_WORD_LENGTH + 1, len(s) + 10]` and
whose counts contain the source's; a dictionary `otherWord` with
`MIN_WORD_LENGTH ≤ len < remainingLength` whose counts fit in the remainder
`counts(resultWord) − counts(s)`; and a non-empty `addedLetters` equal to
`addedLetters(combine(counts(s), counts(otherWord)), counts(resultWord))`. -/
theorem merge_with_source_postcondition (ctx : Ctx) (sourceWord : Word)
    (maxResults : Nat) (r : MergeToResult)
    (h : r ∈ findMergeStealsTo ctx sourceWord maxResults) :
    r.resultWord ∈ ctx.wordList ∧
    sourceWord.length + MIN_WORD_LENGTH + 1 ≤ r.resultWord.length ∧
    r.resultWord.length ≤ sourceWord.length + 10 ∧
    (↑sourceWord : Multiset Char) ≤ ↑r.resultWord ∧
    r.otherWord ∈ ctx.wordList ∧
    MIN_WORD_LENGTH ≤ r.otherWord.length ∧
    r.otherWord.length <
      Multiset.card ((↑r.resultWord : Multiset Char) - (↑sourceWord : Multiset Char)) ∧
    (↑r.otherWord : Multiset Char) ≤
      (↑r.resultWord : Multiset Char) - (↑sourceWord : Multiset Char) ∧
    r.addedLetters ≠ [] ∧
    r.addedLetters = getAddedLetters
      (combineLetterCounts (getLetterCounts sourceWord) (getLetterCounts r.otherWord))
      (getLetterCounts r.resultWord) := by
  simp only [findMergeStealsTo] at h
  rw [List.mem_insertionSort] at h
  revert h
  refine foldl_preserve
    (fun (results : List MergeToResult) => r ∈ results → ?_)
    _ _ _ ?_ (fun hx => absurd hx (List.not_mem_nil r))
  intro results targetWord htmem ih hx
  split_ifs at hx with hfull htshort htlong hsrc
  · exact ih hx
  · exact ih hx
  · exact ih hx
  · exact ih hx
  · revert hx
    refine foldl_preserve
      (fun (l : List MergeToResult) => r ∈ l →
        r.resultWord ∈ ctx.wordList ∧
        sourceWord.length + MIN_WORD_LENGTH + 1 ≤ r.resultWord.length ∧
        r.resultWord.length ≤ sourceWord.length + 10 ∧
        (↑sourceWord : Multiset Char) ≤ ↑r.resultWord ∧
        r.otherWord ∈ ctx.wordList ∧
        MIN_WORD_LENGTH ≤ r.otherWord.length ∧
        r.otherWord.length <
          Multiset.card ((↑r.resultWord : Multiset Char) -
            (↑sourceWord : Multiset Char)) ∧
        (↑r.otherWord : Multiset Char) ≤
          (↑r.resultWord : Multiset Char) - (↑sourceWord : Multiset Char) ∧
        r.addedLetters ≠ [] ∧
        r.addedLetters = getAddedLetters
          (combineLetterCounts (getLetterCounts sourceWord)
            (getLetterCounts r.otherWord))
          (getLetterCounts r.resultWord))
      _ _ _ ?_ ih
    intro results' otherWord homem ih' hx
    split_ifs at hx with hfull' hlen' hosub hadd
    · exact ih' hx
    · exact ih' hx
    · exact ih' hx
    · rcases List.mem_append.mp hx with hx | hx
      · exact ih' hx
      · rw [List.mem_singleton] at hx
        subst hx
        dsimp only
        have hsrc' : isSubsetCounts (getLetterCounts sourceWord)
            (getLetterCounts targetWord) = true := by
          rcases hb : isSubsetCounts (getLetterCounts sourceWord)
              (getLetterCounts targetWord) with _ | _
          · exact absurd (by rw [hb]; rfl) hsrc
          · rfl
        have hosub2 : isSubsetCounts (getLetterCounts otherWord)
            ((getLetterCounts targetWord).diff (getLetterCounts sourceWord)) =
            true := by
          rcases hb : isSubsetCounts (getLetterCounts otherWord)
              ((getLetterCounts targetWord).diff (getLetterCounts sourceWord))
            with _ | _
          · exact absurd (by rw [hb]; rfl) hosub
          · rfl
        have hosub' : (↑otherWord : Multiset Char) ≤
            (↑targetWord : Multiset Char) - (↑sourceWord : Multiset Char) := by
          rw [Multiset.coe_sub]
          exact (isSubsetCounts_iff _ _).mp hosub2
        rw [Bool.or_eq_true, not_or, decide_eq_true_eq, decide_eq_true_eq]
          at hlen'
        refine ⟨htmem, by omega, by omega,
          (isSubsetCounts_iff _ _).mp hsrc', homem, by omega, ?_, hosub', ?_, rfl⟩
        · have hcard : otherWord.length <
              ((getLetterCounts targetWord).diff
                (getLetterCounts sourceWord)).length := by omega
          rw [Multiset.coe_sub, Multiset.coe_card]
          exact hcard
        · intro hnil
          rw [hnil] at hadd
          simp at hadd
    · exact ih' hx

/-- Closed instance of C4: merging source `AAAA` with `BBBB` plus added
letter `C` to reach `AAAABBBBC`. -/
theorem merge_with_source_postcondition_witness :
    "AAAABBBBC".toList ∈
      (testCtx ["AAAA".toList, "BBBB".toList, "AAAABBBBC".toList]).wordList ∧
    "AAAA".toList.length + MIN_WORD_LENGTH + 1 ≤ "AAAABBBBC".toList.length ∧
    "AAAABBBBC".toList.length ≤ "AAAA".toList.length + 10 ∧
    (↑"AAAA".toList : Multiset Char) ≤ ↑"AAAABBBBC".toList ∧
    "BBBB".toList ∈
      (testCtx ["AAAA".toList, "BBBB".toList, "AAAABBBBC".toList]).wordList ∧
    MIN_WORD_LENGTH ≤ "BBBB".toList.length ∧
    "BBBB".toList.length <
      Multiset.card ((↑"AAAABBBBC".toList : Multiset Char) -
        (↑"AAAA".toList : Multiset Char)) ∧
    (↑"BBBB".toList : Multiset Char) ≤
      (↑"AAAABBBBC".toList : Multiset Char) - (↑"AAAA".toList : Multiset Char) ∧
    "C".toList ≠ [] ∧
    "C".toList = getAddedLetters
      (combineLetterCounts (getLetterCounts "AAAA".toList)
        (getLetterCounts "BBBB".toList))
      (getLetterCounts "AAAABBBBC".toList) :=
  merge_with_source_postcondition
    (testCtx ["AAAA".toList, "BBBB".toList, "AAAABBBBC".toList])
    "AAAA".toList 200
    ⟨"BBBB".toList, "C".toList, "AAAABBBBC".toList, true⟩ (by decide)

/-- C3: for dictionary words `a` and `b` with `a` shorter (and of the
dictionary's minimum length), `a`'s counts a strict subset of `b`'s, `b`
appears as a `resultWord` of `findStealsTo a` iff `a` appears as a
`baseWord` of `findStealsFrom b`, and all such entries carry the same
`addedLetters` string and the same `invalid` flag. -/
theorem steal_direction_symmetry (ctx : Ctx) (a b : Word)
    (ha : a ∈ ctx.wordList) (hb : b ∈ ctx.wordList)
    (hmin : MIN_WORD_LENGTH ≤ a.length) (hlen : a.length < b.length)
    (hsub : (↑a : Multiset Char) ≤ ↑b) :
    ((∃ e ∈ findStealsTo ctx a, e.resultWord = b) ↔
      (∃ e ∈ findStealsFrom ctx b, e.baseWord = a)) ∧
    (∀ e1 ∈ findStealsTo ctx a, e1.resultWord = b →
      ∀ e2 ∈ findStealsFrom ctx b, e2.baseWord = a →
        e1.addedLetters = e2.addedLetters ∧ e1.invalid = e2.invalid) := by
  have hstrict : isStrictSubset a b = true := (isStrictSubset_iff a b).mpr ⟨hsub, hlen⟩
  constructor
  · constructor
    · intro _
      exact ⟨⟨a, getAddedLetters a b, isInflection ctx a b⟩,
        (mem_findStealsFrom ctx b _).mpr ⟨a, ha, hmin, hlen, hstrict, rfl⟩, rfl⟩
    · intro _
      exact ⟨⟨b, getAddedLetters a b, isInflection ctx a b⟩,
        (mem_findStealsTo ctx a _).mpr ⟨b, hb, by omega, hlen, hstrict, rfl⟩, rfl⟩
  · intro e1 he1 hr1 e2 he2 hr2
    rw [mem_findStealsTo] at he1
    obtain ⟨w1, _, _, _, _, rfl⟩ := he1
    rw [mem_findStealsFrom] at he2
    obtain ⟨w2, _, _, _, _, rfl⟩ := he2
    dsimp only at hr1 hr2 ⊢
    subst hr1
    subst hr2
    exact ⟨rfl, rfl⟩

/-- Closed instance of C3 at the two-word dictionary `PLANE`, `LANE`. -/
theorem steal_direction_symmetry_witness :
    ((∃ e ∈ findStealsTo (testCtx ["PLANE".toList, "LANE".toList]) "LANE".toList,
        e.resultWord = "PLANE".toList) ↔
      (∃ e ∈ findStealsFrom (testCtx ["PLANE".toList, "LANE".toList])
          "PLANE".toList, e.baseWord = "LANE".toList)) ∧
    (∀ e1 ∈ findStealsTo (testCtx ["PLANE".toList, "LANE".toList]) "LANE".toList,
      e1.resultWord = "PLANE".toList →
      ∀ e2 ∈ findStealsFrom (testCtx ["PLANE".toList, "LANE".toList])
          "PLANE".toList, e2.baseWord = "LANE".toList →
        e1.addedLetters = e2.addedLetters ∧ e1.invalid = e2.invalid) :=
  steal_direction_symmetry (testCtx ["PLANE".toList, "LANE".toList])
    "LANE".toList "PLANE".toList (by decide) (by decide) (by decide) (by decide)
    (by decide)

theorem stealLE_fromOrd {x y : StealResult} (h : stealLE .fromDir x y = true) :
    fromOrd ⟨x.word, x.addedLetters, x.invalid⟩ ⟨y.word, y.addedLetters, y.invalid⟩ := by
  unfold stealLE at h
  unfold fromOrd
  dsimp only
  by_cases h1 : x.invalid = y.invalid
  · rw [if_neg (show ¬(x.invalid ≠ y.invalid) by simp [h1])] at h
    by_cases h2 : x.word.length = y.word.length
    · rw [if_neg (show ¬(x.word.length ≠ y.word.length) by omega)] at h
      exact Or.inr ⟨h1, Or.inr ⟨h2, h⟩⟩
    · rw [if_pos (show x.word.length ≠ y.word.length by omega)] at h
      simp only [decide_eq_true_eq] at h
      exact Or.inr ⟨h1, Or.inl h⟩
  · rw [if_pos (show x.invalid ≠ y.invalid by simpa using h1)] at h
    have hx : x.invalid = false := by simpa using h
    have hy : y.invalid = true := by
      cases hyv : y.invalid
      · exact absurd (hx.trans hyv.symm) h1
      · rfl
    exact Or.inl ⟨hx, hy⟩

theorem stealLE_toOrd {x y : StealResult} (h : stealLE .toDir x y = true) :
    toOrd ⟨x.word, x.addedLetters, x.invalid⟩ ⟨y.word, y.addedLetters, y.invalid⟩ := by
  unfold stealLE at h
  unfold toOrd
  dsimp only
  by_cases h1 : x.invalid = y.invalid
  · rw [if_neg (show ¬(x.invalid ≠ y.invalid) by simp [h1])] at h
    by_cases h2 : x.word.length = y.word.length
    · rw [if_neg (show ¬(x.word.length ≠ y.word.length) by omega)] at h
      exact Or.inr ⟨h1, Or.inr ⟨h2, h⟩⟩
    · rw [if_pos (show x.word.length ≠ y.word.length by omega)] at h
      simp only [decide_eq_true_eq] at h
      exact Or.inr ⟨h1, Or.inl h⟩
  · rw [if_pos (show x.invalid ≠ y.invalid by simpa using h1)] at h
    have hx : x.invalid = false := by simpa using h
    have hy : y.invalid = true := by
      cases hyv : y.invalid
      · exact absurd (hx.trans hyv.symm) h1
      · rfl
    exact Or.inl ⟨hx, hy⟩

theorem findStealsCore_pairwise (ctx : Ctx) (w : Word) (direction : Direction) :
    (findStealsCore ctx w direction).Pairwise
      (fun x y => stealLE direction x y = true) := by
  simp only [findStealsCore]
  haveI : IsTotal StealResult (fun x y => stealLE direction x y = true) :=
    ⟨stealLE_total direction⟩
  haveI : IsTrans StealResult (fun x y => stealLE direction x y = true) :=
    ⟨stealLE_trans direction⟩
  exact List.sorted_insertionSort _ _

/-- C9: `findStealsFrom` lists every valid entry before every invalid one
and sorts each validity group by base-word length descending then
alphabetically; `findStealsTo` sorts its groups by result-word length
ascending then alphabetically; in particular for `findStealsFrom "PLANE"`
the equal-length valid candidates come out as `LANE` before `PLAN`. -/
theorem steal_result_ordering :
    (∀ (ctx : Ctx) (w : Word), (findStealsFrom ctx w).Pairwise fromOrd) ∧
    (∀ (ctx : Ctx) (w : Word), (findStealsTo ctx w).Pairwise toOrd) ∧
    (findStealsFrom (testCtx ["PLANE".toList, "LANE".toList, "PLAN".toList])
      "PLANE".toList).map (·.baseWord) = ["LANE".toList, "PLAN".toList] := by
  refine ⟨?_, ?_, by decide⟩
  · intro ctx w
    unfold findStealsFrom
    rw [List.pairwise_map]
    exact (findStealsCore_pairwise ctx w .fromDir).imp fun h => stealLE_fromOrd h
  · intro ctx w
    unfold findStealsTo
    rw [List.pairwise_map]
    exact (findStealsCore_pairwise ctx w .toDir).imp fun h => stealLE_toOrd h
